import Mathlib

/-!
Verification of the bank-account ledger manager (`bankacct.cpp` / `bankacct.h`).

Shallow embedding conventions:
* `double` currency values are modelled as exact rationals (`ℚ`); the program's
  `pow(10, place)`, `fmod` and `floor` become exact operations on `ℚ`.
* C `unsigned int` subtraction is modelled with an explicit wrap (`usub32`)
  where underflow can occur; elsewhere guards in the source ensure the
  subtraction does not underflow, so `Nat` subtraction coincides.
* `(long long)` casts of a `double` truncate toward zero (`truncQ`).
* C strings (`char[]`) are modelled as `String`; `strcmp`-ordering uses the
  lexicographic order on the underlying `List Char`.
* ncurses rendering is dropped; only state transitions driven by key events
  are modelled, one constructor per `case` of the source `switch`.
-/

namespace Bankacct

/-- The persisted fields of `struct Account` (`bankacct.h`).  The extra field
`nameLength` is a cached display width recomputed at load time and is omitted. -/
structure Account where
  first : String
  last : String
  middle : Char
  social : ℕ
  area : ℕ
  phone : ℕ
  balance : ℚ
  number : String
  password : String
deriving DecidableEq

/-! ### Arithmetic helpers from the source -/

/-- Unsigned 32-bit subtraction `a - b` as it wraps in C (`unsigned int`). -/
def usub32 (a b : ℕ) : ℕ := (a + 4294967296 - b) % 4294967296

/-- The digit-counting loop of `numPlaces` (`bankacct.cpp`): repeatedly divide
by 10, counting one place per division.  `fuel` bounds the iterations; fuel 20
covers every `long long` value (at most 19 decimal digits), so on the values
the program can pass, the fuelled loop equals the C `while` loop. -/
def numPlacesGo : ℕ → ℕ → ℕ
  | 0, _ => 1
  | fuel + 1, i => if 10 ≤ i then 1 + numPlacesGo fuel (i / 10) else 1

/-- `numPlaces(long long i)` from `bankacct.cpp`: the number of characters the
integer takes in decimal, a leading minus sign counting as one place. -/
def numPlacesZ (i : ℤ) : ℕ :=
  if i < 0 then 1 + numPlacesGo 20 (-i).toNat else numPlacesGo 20 i.toNat

/-- Truncation toward zero, the behaviour of the C cast `(long long)` applied
to a `double`.  `Int.tdiv` is T-division, matching C. -/
def truncQ (q : ℚ) : ℤ := Int.tdiv q.num (q.den : ℤ)

/-- C `fmod x y` (for `y ≠ 0`): the remainder `x - trunc(x/y) * y`. -/
def fmodQ (x y : ℚ) : ℚ := x - (truncQ (x / y) : ℚ) * y

/-- C `pow(10, place)` on an integer exponent, exact on `ℚ`. -/
def pow10 (z : ℤ) : ℚ := (10 : ℚ) ^ z

/-! ### The main-menu viewport (`mainMenu`, `bankacct.cpp` lines 95-182)

`cursorPos` is the cursor's offset inside the visible window, `windowPos` the
index of the first visible record.  `numRowsOf height` is the window size
`height - UI_ROWS` clamped to `MAX_ROW = 40` (with `UI_ROWS = 6` subtracted in
unsigned arithmetic, exactly as the source computes it). -/

structure ViewState where
  cursorPos : ℕ
  windowPos : ℕ
deriving DecidableEq

/-- `numRows = height - UI_ROWS > MAX_ROW ? MAX_ROW : height - UI_ROWS`. -/
def numRowsOf (height : ℕ) : ℕ :=
  if 40 < usub32 height 6 then 40 else usub32 height 6

/-- The window-fitting block run at the top of every `mainMenu` iteration
(lines 106-115): clamp `windowPos` so the window does not run past the end of
the collection, folding the excess into `cursorPos`; then, if the cursor sits
at or below the window's last row, move the window start down by the excess. -/
def viewNormalize (count numRows : ℕ) (s : ViewState) : ViewState :=
  let t : ViewState :=
    if count < numRows then ⟨s.cursorPos + s.windowPos, 0⟩
    else if count - numRows < s.windowPos then
      ⟨s.cursorPos + (s.windowPos - (count - numRows)), count - numRows⟩
    else s
  if numRows ≤ t.cursorPos then ⟨t.cursorPos, t.windowPos + (t.cursorPos - numRows + 1)⟩
  else t

/-- The two navigation keys handled by the viewport. -/
inductive NavKey where
  | up
  | down
deriving DecidableEq

/-- The `KEY_UP` / `KEY_DOWN` cases of `mainMenu` (lines 126-150).  `KEY_DOWN`
compares `cursorPos` against `MAX_ROW - 1 = 39` and against `height - 7`
(unsigned), exactly as the source does. -/
def navKeyStep (count height : ℕ) (s : ViewState) : NavKey → ViewState
  | .up =>
    if s.cursorPos ≠ 0 then ⟨s.cursorPos - 1, s.windowPos⟩
    else if count ≤ numRowsOf height then ⟨count - 1, s.windowPos⟩
    else if s.windowPos ≠ 0 then ⟨s.cursorPos, s.windowPos - 1⟩
    else ⟨numRowsOf height - 1, count - (numRowsOf height - 1) - 1⟩
  | .down =>
    if count - 1 ≤ s.cursorPos + s.windowPos then ⟨0, 0⟩
    else if s.cursorPos = 39 ∨ s.cursorPos = usub32 height 7 then
      ⟨s.cursorPos, s.windowPos + 1⟩
    else ⟨s.cursorPos + 1, s.windowPos⟩

/-- One full `mainMenu` iteration handling a navigation key: the fitting block
runs first (the screen is redrawn), then the key is processed. -/
def navStep (count height : ℕ) (s : ViewState) (k : NavKey) : ViewState :=
  navKeyStep count height (viewNormalize count (numRowsOf height) s) k

/-- Iterated `navStep` at a fixed terminal height. -/
def navRun (count height : ℕ) (s : ViewState) (ks : List NavKey) : ViewState :=
  ks.foldl (navStep count height) s

/-- Iterated `navStep` where each iteration reads the current terminal height
(a resize simply changes the height seen by the following iterations). -/
def navRunH (count : ℕ) : ViewState → List (ℕ × NavKey) → ViewState
  | s, [] => s
  | s, (h, k) :: es => navRunH count (navStep count h s k) es

/-- The record selected by the viewport: `windowPos + cursorPos`. -/
def selIdx (s : ViewState) : ℕ := s.windowPos + s.cursorPos

/-! ### The amount-entry loops (`deposit`, `withdraw`, `transferAmmount`)

Each of the three functions keeps a running amount `newBalance : double`, a
decimal cursor `place : int` (0 while the whole part is being typed, negative
once a decimal point has been placed) and a `confirm` flag.  The loops differ
only in the digit guard and in what `Enter` commits, so each gets its own
transcription of its `switch`. -/

structure AmountState where
  amount : ℚ
  place : ℤ
  confirm : Bool
deriving DecidableEq

/-- The state at entry of each loop: `newBalance = 0`, `place = 0`,
`confirm = false`. -/
def initAmount : AmountState := ⟨0, 0, false⟩

/-- The key events the three amount loops handle (CTRL-C, which terminates the
process, is omitted; `esc` is a lone escape). -/
inductive AmtEv where
  | digit : Fin 10 → AmtEv
  | point
  | backspace
  | enter
  | esc
deriving DecidableEq

/-- Result of one loop iteration: keep looping in a new state, or leave the
function with a result of type `ε`. -/
inductive StepRes (ε : Type) where
  | cont : AmountState → StepRes ε
  | exit : ε → StepRes ε
deriving DecidableEq

/-- Result of feeding a whole event list: either the loop is still waiting for
input, or it returned. -/
inductive RunRes (ε : Type) where
  | more : AmountState → RunRes ε
  | exit : ε → RunRes ε
deriving DecidableEq

/-- Feed events one at a time until the loop returns or input runs out. -/
def runAmt {ε : Type} (step : AmountState → AmtEv → StepRes ε) :
    AmountState → List AmtEv → RunRes ε
  | s, [] => .more s
  | s, e :: es =>
    match step s e with
    | .cont s2 => runAmt step s2 es
    | .exit r => .exit r

/-- The `'.'` case, identical in all three loops: clear a pending confirm;
`if(!place) place--`. -/
def pointCase (s : AmountState) : AmountState :=
  ⟨s.amount, if s.place = 0 then s.place - 1 else s.place, false⟩

/-- The `KEY_BACKSPACE` case, identical in all three loops: clear a pending
confirm; in fractional mode strip the last fractional digit
(`newBalance -= fmod(newBalance, pow(10, place + 2)); place++`), otherwise
drop the last whole digit (`newBalance = floor(newBalance / 10)`). -/
def backspaceCase (s : AmountState) : AmountState :=
  if s.place ≠ 0 then
    ⟨s.amount - fmodQ s.amount (pow10 (s.place + 2)), s.place + 1, false⟩
  else ⟨(⌊s.amount / 10⌋ : ℤ), s.place, false⟩

/-- One iteration of the `deposit` input loop (`bankacct.cpp` lines 454-516),
for an account of balance `bal`.  On commit the new balance
`bal + newBalance` is returned; `esc` outside a pending confirm leaves with no
commit. -/
def depositStep (bal : ℚ) (s : AmountState) : AmtEv → StepRes (Option ℚ)
  | .digit d =>
    if d.val = 0 ∧ s.amount = 0 then .cont s
    else
      let s1 : AmountState := ⟨s.amount, s.place, false⟩
      if s1.place < -2 then .cont s1
      else if s1.place = 0 then
        if 12 ≤ numPlacesZ (truncQ (bal + s1.amount)) then .cont s1
        else .cont ⟨s1.amount * 10 + (d.val : ℚ) * pow10 s1.place, s1.place, false⟩
      else .cont ⟨s1.amount + (d.val : ℚ) * pow10 s1.place, s1.place - 1, false⟩
  | .point => .cont (pointCase s)
  | .backspace => .cont (backspaceCase s)
  | .enter =>
    if s.confirm then .exit (some (bal + s.amount))
    else .cont ⟨s.amount, s.place, true⟩
  | .esc => if s.confirm then .cont ⟨s.amount, s.place, false⟩ else .exit none

/-- One iteration of the `withdraw` input loop (lines 568-627).  The digit
guard rejects once `balance - newBalance < 0`; there is no 12-place guard and
no fractional-depth guard here.  `Enter` arms the confirm flag only when
`balance - newBalance >= 0`, and commits `bal - newBalance` when already
armed. -/
def withdrawStep (bal : ℚ) (s : AmountState) : AmtEv → StepRes (Option ℚ)
  | .digit d =>
    if d.val = 0 ∧ s.amount = 0 then .cont s
    else
      let s1 : AmountState := ⟨s.amount, s.place, false⟩
      if bal - s1.amount < 0 then .cont s1
      else
        let a2 := if s1.place = 0 then s1.amount * 10 else s1.amount
        .cont ⟨a2 + (d.val : ℚ) * pow10 s1.place,
               if s1.place = 0 then s1.place else s1.place - 1, false⟩
  | .point => .cont (pointCase s)
  | .backspace => .cont (backspaceCase s)
  | .enter =>
    if s.confirm then .exit (some (bal - s.amount))
    else if 0 ≤ bal - s.amount then .cont ⟨s.amount, s.place, true⟩
    else .cont s
  | .esc => if s.confirm then .cont ⟨s.amount, s.place, false⟩ else .exit none

/-- One iteration of the `transferAmmount` input loop (lines 867-930), between
a source of balance `fromBal` and a destination of balance `toBal`.  The digit
guard applies only while typing the whole part; `Enter` arms the confirm flag
unconditionally and, when already armed, commits the pair
`(fromBal - newBalance, toBal + newBalance)`. -/
def transferStep (fromBal toBal : ℚ) (s : AmountState) : AmtEv → StepRes (Option (ℚ × ℚ))
  | .digit d =>
    if d.val = 0 ∧ s.amount = 0 then .cont s
    else
      let s1 : AmountState := ⟨s.amount, s.place, false⟩
      if s1.place < -2 then .cont s1
      else if s1.place = 0 then
        if 12 ≤ numPlacesZ (truncQ (toBal + s1.amount)) ∨ fromBal - s1.amount < 0 then
          .cont s1
        else .cont ⟨s1.amount * 10 + (d.val : ℚ) * pow10 s1.place, s1.place, false⟩
      else .cont ⟨s1.amount + (d.val : ℚ) * pow10 s1.place, s1.place - 1, false⟩
  | .point => .cont (pointCase s)
  | .backspace => .cont (backspaceCase s)
  | .enter =>
    if s.confirm then .exit (some (fromBal - s.amount, toBal + s.amount))
    else .cont ⟨s.amount, s.place, true⟩
  | .esc => if s.confirm then .cont ⟨s.amount, s.place, false⟩ else .exit none

/-! ### Store-level commits

On commit the loops mutate `balance` through a pointer into the
`vector<Account>`; at store level this is an in-place update of the balance
field at an index. -/

/-- Update the balance of the record at index `i` by `f`; out-of-range indices
leave the store unchanged. -/
def modifyBalance (f : ℚ → ℚ) : List Account → ℕ → List Account
  | [], _ => []
  | a :: as, 0 => { a with balance := f a.balance } :: as
  | a :: as, n + 1 => a :: modifyBalance f as n

/-- The committed `deposit`: `acc->balance += newBalance` (line 512). -/
def commitDeposit (ps : List Account) (i : ℕ) (amt : ℚ) : List Account :=
  modifyBalance (· + amt) ps i

/-- The committed `withdraw`: `acc->balance -= newBalance` (line 623). -/
def commitWithdraw (ps : List Account) (i : ℕ) (amt : ℚ) : List Account :=
  modifyBalance (· - amt) ps i

/-- The committed transfer: `from->balance -= newBalance` then
`to->balance += newBalance` (lines 925-926). -/
def commitTransfer (ps : List Account) (i j : ℕ) (amt : ℚ) : List Account :=
  modifyBalance (· + amt) (modifyBalance (· - amt) ps i) j

/-- The sum of all balances in the store. -/
def totalBalance (ps : List Account) : ℚ := (ps.map Account.balance).sum

/-! ### Persistence (`WriteOnShutdown::~WriteOnShutdown` and `loadDatabase`)

One whitespace-delimited token of the database file.  Numeric tokens carry
their exact value: text formatting and parsing of numbers is modelled as the
identity, which is what `operator<<`/`operator>>` give on the values in
range. -/

inductive Field where
  | str : String → Field
  | chr : Char → Field
  | nat : ℕ → Field
  | rat : ℚ → Field
deriving DecidableEq

/-- The tokens `~WriteOnShutdown` writes for one account, in source order:
`first, last, middle, social, area, phone, balance, number, password`
(`bankacct.h` lines 92-102). -/
def writeAccount (a : Account) : List Field :=
  [.str a.first, .str a.last, .chr a.middle, .nat a.social, .nat a.area,
   .nat a.phone, .rat a.balance, .str a.number, .str a.password]

/-- The whole file written at shutdown: every record in order. -/
def writeAll : List Account → List Field
  | [] => []
  | a :: as => writeAccount a ++ writeAll as

/-- The read loop of `loadDatabase` (lines 1343-1357): records are extracted
nine fields at a time in the order
`last, first, middle, social, area, phone, balance, number, password`; a
trailing short or malformed record is discarded. -/
def readAll : List Field → List Account
  | .str l :: .str f :: .chr m :: .nat so :: .nat ar :: .nat ph :: .rat b ::
      .str n :: .str pw :: rest =>
    ⟨f, l, m, so, ar, ph, b, n, pw⟩ :: readAll rest
  | _ => []

/-- Exchange the first and last name of a record. -/
def swapNames (a : Account) : Account := { a with first := a.last, last := a.first }

/-! ### Password verification (`verify`, lines 987-1040) -/

/-- The keys the `verify` loop handles besides ESC/CTRL-C (which leave the
function): a typed character and backspace. -/
inductive VKey where
  | ch : Char → VKey
  | backspace : VKey
deriving DecidableEq

/-- The hard-coded master override compared against on line 1027:
`!strcmp(pass, "passwo")`. -/
def masterPassword : List Char := ['p', 'a', 's', 's', 'w', 'o']

/-- The `verify` input loop, with entered buffer `buf`: non-alphanumeric keys
are ignored, input is capped at `PASS_LENGTH = 6`, backspace drops the last
character, and as soon as the buffer reaches 6 characters it is compared with
the account password and with the master override.  `none` means the loop is
still waiting for input. -/
def verifyGo (stored : List Char) : List Char → List VKey → Option Bool
  | _, [] => none
  | buf, .backspace :: ks =>
    verifyGo stored (if buf.length ≠ 0 then buf.dropLast else buf) ks
  | buf, .ch c :: ks =>
    if ¬c.isAlphanum ∨ 6 ≤ buf.length then verifyGo stored buf ks
    else if (buf ++ [c]).length = 6 then
      some (buf ++ [c] = stored ∨ buf ++ [c] = masterPassword : Bool)
    else verifyGo stored (buf ++ [c]) ks

/-- `verify` on an account with stored password `stored`, starting from the
empty buffer. -/
def runVerify (stored : List Char) (ks : List VKey) : Option Bool :=
  verifyGo stored [] ks

/-- The alphanumeric characters a key list enters, in order. -/
def enteredChars (ks : List VKey) : List Char :=
  ks.filterMap fun k =>
    match k with
    | .ch c => if c.isAlphanum then some c else none
    | .backspace => none

/-- The `CredentialGate` contract as the specification words it: once six
characters have been entered the result is reported, true exactly when the
entry equals the stored password or the master override; before that the gate
is still waiting. -/
def verifySpec (stored : List Char) (ks : List VKey) : Option Bool :=
  if 6 ≤ (enteredChars ks).length then
    some ((enteredChars ks).take 6 = stored ∨ (enteredChars ks).take 6 = masterPassword : Bool)
  else none

/-! ### Opening an account (`openAccount`, lines 1048-1247) -/

/-- Ordering of accounts used by the `std::sort` calls: the comparator is
`strcmp(a.number, b.number) < 0`, byte-lexicographic on the number. -/
def accLe (a b : Account) : Prop := a.number.data ≤ b.number.data

instance : DecidableRel accLe := fun a b =>
  inferInstanceAs (Decidable (a.number.data ≤ b.number.data))

instance : IsTotal Account accLe :=
  ⟨fun a b => le_total a.number.data b.number.data⟩

instance : IsTrans Account accLe :=
  ⟨fun _ _ _ hab hbc => le_trans hab hbc⟩

/-- The effect of `std::sort(people->begin(), people->end(), ...)`: a
permutation of the store sorted by account number.  `std::sort` promises
exactly a sorted permutation (it is not stable); insertion sort is taken as
the representative. -/
def sortByNumber (ps : List Account) : List Account := ps.insertionSort accLe

/-- Committing a new account on the final field of `openAccount` (lines
1169-1176): `people->push_back(newPerson)` followed by the sort.  No check
against existing account numbers is made anywhere in `openAccount`. -/
def openInsert (ps : List Account) (a : Account) : List Account :=
  sortByNumber (ps ++ [a])

/-! ### Concrete records used in closed evaluations -/

/-- A sample account: first name ALEXANDER, last name NOVOTNY. -/
def acctA : Account :=
  ⟨"ALEXANDER", "NOVOTNY", 'K', 123456789, 999, 8887777, 100, "A0001", "PASS01"⟩

/-- A second sample account: first name JOHN, last name DOE. -/
def acctB : Account :=
  ⟨"JOHN", "DOE", 'C', 987654321, 888, 7776666, 5, "B0002", "PASS02"⟩

/-- An account whose number collides with `acctA`. -/
def acctDup : Account :=
  ⟨"BOB", "JONES", 'B', 222222222, 666, 7654321, 50, "A0001", "PASS03"⟩

/-! ### Store-level facts about balance mutation -/

theorem modifyBalance_length (f : ℚ → ℚ) :
    ∀ (ps : List Account) (i : ℕ), (modifyBalance f ps i).length = ps.length
  | [], _ => rfl
  | _ :: _, 0 => rfl
  | _ :: as, n + 1 => congrArg Nat.succ (modifyBalance_length f as n)

theorem modifyBalance_getElem_self (f : ℚ → ℚ) :
    ∀ (ps : List Account) (i : ℕ),
      (modifyBalance f ps i)[i]? =
        ps[i]?.map fun a => { a with balance := f a.balance }
  | [], _ => by simp [modifyBalance]
  | _ :: _, 0 => by simp [modifyBalance]
  | _ :: as, n + 1 => by
    simpa [modifyBalance] using modifyBalance_getElem_self f as n

theorem modifyBalance_getElem_ne (f : ℚ → ℚ) :
    ∀ (ps : List Account) (i k : ℕ), k ≠ i →
      (modifyBalance f ps i)[k]? = ps[k]?
  | [], _, _, _ => by simp [modifyBalance]
  | _ :: _, 0, 0, h => absurd rfl h
  | _ :: _, 0, _ + 1, _ => by simp [modifyBalance]
  | _ :: _, _ + 1, 0, _ => by simp [modifyBalance]
  | _ :: as, n + 1, m + 1, h => by
    simpa [modifyBalance] using
      modifyBalance_getElem_ne f as n m (fun hc => h (congrArg Nat.succ hc))

theorem totalBalance_modify_add (a : ℚ) :
    ∀ (ps : List Account) (i : ℕ), i < ps.length →
      totalBalance (modifyBalance (· + a) ps i) = totalBalance ps + a
  | [], i, h => absurd h (by simp)
  | p :: ps, 0, _ => by simp [modifyBalance, totalBalance]; ring
  | p :: ps, n + 1, h => by
    have := totalBalance_modify_add a ps n (by simpa using h)
    simp [modifyBalance, totalBalance] at this ⊢
    rw [this]; ring

theorem totalBalance_modify_sub (a : ℚ) :
    ∀ (ps : List Account) (i : ℕ), i < ps.length →
      totalBalance (modifyBalance (· - a) ps i) = totalBalance ps - a
  | [], i, h => absurd h (by simp)
  | p :: ps, 0, _ => by simp [modifyBalance, totalBalance]; ring
  | p :: ps, n + 1, h => by
    have := totalBalance_modify_sub a ps n (by simpa using h)
    simp [modifyBalance, totalBalance] at this ⊢
    rw [this]; ring

/-- C2: for every committed transfer of amount `a` from the account at index
`i` (balance `bx`) to a distinct account at index `j` (balance `by`), the new
balances are exactly `bx - a` and `by + a` (every other field of those two
records kept), and the total of all balances in the store is unchanged. -/
theorem C2_transfer_commit_exact (ps : List Account) (i j : ℕ) (a : ℚ)
    (hi : i < ps.length) (hj : j < ps.length) (hij : i ≠ j) :
    (commitTransfer ps i j a)[i]? =
      ps[i]?.map (fun x => { x with balance := x.balance - a }) ∧
    (commitTransfer ps i j a)[j]? =
      ps[j]?.map (fun x => { x with balance := x.balance + a }) ∧
    totalBalance (commitTransfer ps i j a) = totalBalance ps := by
  refine ⟨?_, ?_, ?_⟩
  · rw [commitTransfer, modifyBalance_getElem_ne _ _ _ _ hij,
      modifyBalance_getElem_self]
  · rw [commitTransfer, modifyBalance_getElem_self,
      modifyBalance_getElem_ne _ _ _ _ (Ne.symm hij)]
  · rw [commitTransfer, totalBalance_modify_add _ _ _
      (by rwa [modifyBalance_length]), totalBalance_modify_sub _ _ _ hi]
    ring

/-- Witness for C2 at a concrete two-account store. -/
theorem C2_transfer_commit_exact_witness :
    (commitTransfer [acctA, acctB] 0 1 5)[0]? =
      [acctA, acctB][0]?.map (fun x => { x with balance := x.balance - 5 }) ∧
    (commitTransfer [acctA, acctB] 0 1 5)[1]? =
      [acctA, acctB][1]?.map (fun x => { x with balance := x.balance + 5 }) ∧
    totalBalance (commitTransfer [acctA, acctB] 0 1 5) =
      totalBalance [acctA, acctB] :=
  C2_transfer_commit_exact [acctA, acctB] 0 1 5 (by simp) (by simp) (by simp)

/-- The non-balance fields of a record. -/
def identFields (a : Account) : String × String × Char × ℕ × ℕ × ℕ × String × String :=
  (a.first, a.last, a.middle, a.social, a.area, a.phone, a.number, a.password)

theorem modifyBalance_identFields (f : ℚ → ℚ) (ps : List Account) (i k : ℕ) :
    (modifyBalance f ps i)[k]?.map identFields = ps[k]?.map identFields := by
  by_cases h : k = i
  · subst h
    rw [modifyBalance_getElem_self]
    cases ps[k]? <;> simp [identFields]
  · rw [modifyBalance_getElem_ne _ _ _ _ h]

/-- C10: a committed deposit, withdraw or transfer changes only the balance
field of the involved record(s): the store's size is unchanged, records at
all other indices are untouched, and even at the involved indices every field
other than `balance` is kept. -/
theorem C10_commit_frame (ps : List Account) (i j : ℕ) (a : ℚ) :
    ((commitDeposit ps i a).length = ps.length ∧
      (∀ k : ℕ, k ≠ i → (commitDeposit ps i a)[k]? = ps[k]?) ∧
      (∀ k : ℕ, (commitDeposit ps i a)[k]?.map identFields = ps[k]?.map identFields)) ∧
    ((commitWithdraw ps i a).length = ps.length ∧
      (∀ k : ℕ, k ≠ i → (commitWithdraw ps i a)[k]? = ps[k]?) ∧
      (∀ k : ℕ, (commitWithdraw ps i a)[k]?.map identFields = ps[k]?.map identFields)) ∧
    ((commitTransfer ps i j a).length = ps.length ∧
      (∀ k : ℕ, k ≠ i → k ≠ j → (commitTransfer ps i j a)[k]? = ps[k]?) ∧
      (∀ k : ℕ, (commitTransfer ps i j a)[k]?.map identFields = ps[k]?.map identFields)) := by
  refine ⟨⟨modifyBalance_length _ _ _, fun k hk => ?_, fun k => ?_⟩,
    ⟨modifyBalance_length _ _ _, fun k hk => ?_, fun k => ?_⟩,
    ⟨?_, fun k hki hkj => ?_, fun k => ?_⟩⟩
  · exact modifyBalance_getElem_ne _ _ _ _ hk
  · exact modifyBalance_identFields _ _ _ _
  · exact modifyBalance_getElem_ne _ _ _ _ hk
  · exact modifyBalance_identFields _ _ _ _
  · rw [commitTransfer, modifyBalance_length, modifyBalance_length]
  · rw [commitTransfer, modifyBalance_getElem_ne _ _ _ _ hkj,
      modifyBalance_getElem_ne _ _ _ _ hki]
  · rw [commitTransfer, modifyBalance_identFields, modifyBalance_identFields]

/-- Witness for C10 at a concrete store: the untouched-record clauses applied
at concrete indices. -/
theorem C10_commit_frame_witness :
    (commitDeposit [acctA, acctB] 0 50)[1]? = [acctA, acctB][1]? ∧
    (commitWithdraw [acctA, acctB] 1 2)[0]? = [acctA, acctB][0]? ∧
    (commitTransfer [acctA, acctB] 0 1 5)[2]? = [acctA, acctB][2]? ∧
    (commitTransfer [acctA, acctB] 0 1 5)[0]?.map identFields =
      [acctA, acctB][0]?.map identFields :=
  ⟨(C10_commit_frame [acctA, acctB] 0 1 50).1.2.1 1 (by simp),
   (C10_commit_frame [acctA, acctB] 1 0 2).2.1.2.1 0 (by simp),
   (C10_commit_frame [acctA, acctB] 0 1 5).2.2.2.1 2 (by simp) (by simp),
   (C10_commit_frame [acctA, acctB] 0 1 5).2.2.2.2 0⟩

/-! ### Persistence round trip -/

/-- Reloading what the shutdown writer produced swaps the first and last name
of every record: the writer emits `first` before `last` (`bankacct.h` lines
94-95) while the loader reads `last` before `first` (`bankacct.cpp` lines
1345-1346). -/
theorem readAll_writeAll : ∀ ps : List Account, readAll (writeAll ps) = ps.map swapNames
  | [] => rfl
  | a :: as => by
    simp only [writeAll, writeAccount, List.cons_append, List.nil_append, readAll,
      List.map_cons, swapNames]
    exact congrArg (List.cons _) (readAll_writeAll as)

/-- C3: the save/reload round trip at a one-account store whose first and last
name differ.  The reloaded collection is the store with the two name fields
exchanged, which is not equal-by-field to the original. -/
theorem C3_roundtrip_swaps_names :
    readAll (writeAll [acctB]) = [swapNames acctB] ∧
    readAll (writeAll [acctB]) ≠ [acctB] := by
  constructor
  · simp [readAll_writeAll]
  · rw [readAll_writeAll]
    intro h
    have : acctB.last = acctB.first := congrArg Account.first (List.head_eq_of_cons_eq h)
    simp [acctB] at this

/-! ### Opening an account -/

/-- C5 as stated fails: `openAccount` performs no duplicate-number check.
Inserting `acctDup`, whose number equals `acctA`'s, succeeds and leaves both
records (with the duplicate number) in the store instead of failing. -/
theorem C5_counterexample :
    acctDup.number = acctA.number ∧
    openInsert [acctA] acctDup = [acctA, acctDup] ∧
    [acctA, acctDup] ≠ [acctA] := by
  refine ⟨rfl, ?_, by simp⟩
  show sortByNumber [acctA, acctDup] = [acctA, acctDup]
  rw [sortByNumber]
  simp only [List.insertionSort, List.orderedInsert]
  rw [if_pos]
  exact le_refl _

/-- C5 amended: inserting a newly opened account always appends it and
re-sorts the store by account number (a sorted permutation of the store plus
the new record); no duplicate-number failure exists, so a colliding account is
inserted as well. -/
theorem C5_insert_appends_and_sorts (ps : List Account) (a : Account) :
    (openInsert ps a).Perm (ps ++ [a]) ∧ (openInsert ps a).Sorted accLe :=
  ⟨List.perm_insertionSort accLe (ps ++ [a]),
   List.sorted_insertionSort accLe (ps ++ [a])⟩

/-! ### Password verification -/

theorem verifyGo_spec_aux (stored : List Char) :
    ∀ (ks : List VKey) (buf : List Char), buf.length < 6 →
      (∀ k ∈ ks, k ≠ VKey.backspace) →
      verifyGo stored buf ks =
        if 6 ≤ buf.length + (enteredChars ks).length then
          some (((buf ++ enteredChars ks).take 6 = stored ∨
                 (buf ++ enteredChars ks).take 6 = masterPassword : Bool))
        else none
  | [], buf, h6, _ => by
    simp [verifyGo, enteredChars, Nat.not_le.mpr h6]
  | .backspace :: ks, buf, h6, hbs =>
    absurd rfl (hbs .backspace (List.mem_cons_self _ _))
  | .ch c :: ks, buf, h6, hbs => by
    have hks : ∀ k ∈ ks, k ≠ VKey.backspace :=
      fun k hk => hbs k (List.mem_cons_of_mem _ hk)
    have hsplit : ∀ e : List Char, buf ++ c :: e = (buf ++ [c]) ++ e := by
      intro e; simp
    by_cases hal : c.isAlphanum
    · have hent : enteredChars (.ch c :: ks) = c :: enteredChars ks := by
        simp [enteredChars, List.filterMap_cons, hal]
      rw [verifyGo, if_neg (by simp [hal]; omega), hent]
      by_cases hfull : (buf ++ [c]).length = 6
      · rw [if_pos hfull, if_pos (by simp at hfull ⊢; omega),
          hsplit (enteredChars ks), ← hfull, List.take_left]
      · have hlen : (buf ++ [c]).length < 6 := by simp at hfull ⊢; omega
        rw [if_neg hfull, verifyGo_spec_aux stored ks (buf ++ [c]) hlen hks,
          hsplit (enteredChars ks)]
        have hc : buf.length + (c :: enteredChars ks).length =
            (buf ++ [c]).length + (enteredChars ks).length := by simp; omega
        rw [hc]
    · have hent : enteredChars (.ch c :: ks) = enteredChars ks := by
        simp [enteredChars, List.filterMap_cons, hal]
      rw [verifyGo, if_pos (by simp [hal]), hent,
        verifyGo_spec_aux stored ks buf h6 hks]

/-- C6: `verify` reports success exactly when the entered password equals the
account's stored password or the fixed master override.  Typing is capped at
the 6-character password length, non-alphanumeric keys are ignored, and the
comparison fires exactly when the entered buffer reaches 6 characters: for
every backspace-free key sequence, the loop agrees with the specification-side
gate `verifySpec`. -/
theorem C6_verify_correct (stored : List Char) (ks : List VKey)
    (hbs : ∀ k ∈ ks, k ≠ VKey.backspace) :
    runVerify stored ks = verifySpec stored ks := by
  have h := verifyGo_spec_aux stored ks [] (by simp) hbs
  simpa [runVerify, verifySpec] using h

/-- Witness for C6: typing the master override into an account with a
different stored password reports success, in agreement with the
specification gate. -/
theorem C6_verify_correct_witness :
    runVerify ['S', 'E', 'C', 'R', 'E', 'T']
        [.ch 'p', .ch 'a', .ch 's', .ch 's', .ch 'w', .ch 'o'] =
      verifySpec ['S', 'E', 'C', 'R', 'E', 'T']
        [.ch 'p', .ch 'a', .ch 's', .ch 's', .ch 'w', .ch 'o'] ∧
    runVerify ['S', 'E', 'C', 'R', 'E', 'T']
        [.ch 'p', .ch 'a', .ch 's', .ch 's', .ch 'w', .ch 'o'] = some true :=
  ⟨C6_verify_correct _ _ (by decide), by decide⟩

/-! ### Viewport facts -/

theorem usub32_of_le {a b : ℕ} (hba : b ≤ a) (ha : a < 4294967296) :
    usub32 a b = a - b := by
  unfold usub32; omega

theorem numRowsOf_eq {height : ℕ} (h7 : 7 ≤ height) (hlt : height < 4294967296) :
    numRowsOf height = min (height - 6) 40 := by
  unfold numRowsOf
  rw [usub32_of_le (by omega) hlt]
  split <;> omega

/-- The cursor can sit on the window's last visible row exactly when
`cursorPos = numRows - 1`: the source's test
`cursorPos == MAX_ROW - 1 || cursorPos == height - 7` is equivalent to that
for an in-window cursor. -/
theorem down_guard_iff {height c : ℕ} (h7 : 7 ≤ height) (hlt : height < 4294967296)
    (hc : c < numRowsOf height) :
    (c = 39 ∨ c = usub32 height 7) ↔ c = numRowsOf height - 1 := by
  rw [numRowsOf_eq h7 hlt] at hc ⊢
  rw [usub32_of_le (by omega) hlt]
  omega

/-- A viewport state that addresses a record of the store with an in-window
cursor. -/
def goodView (count numRows : ℕ) (s : ViewState) : Prop :=
  s.windowPos + s.cursorPos < count ∧ s.cursorPos < numRows

theorem viewNormalize_good {count numRows : ℕ} {s : ViewState}
    (h : goodView count numRows s) :
    goodView count numRows (viewNormalize count numRows s) ∧
    selIdx (viewNormalize count numRows s) = selIdx s ∧
    (count ≤ numRows → (viewNormalize count numRows s).windowPos = 0) := by
  obtain ⟨c, w⟩ := s
  obtain ⟨h1, h2⟩ := h
  simp only [goodView, selIdx, viewNormalize] at *
  split_ifs <;> simp_all <;> omega

theorem navStep_good {count height : ℕ} {s : ViewState} (k : NavKey)
    (hN : 1 ≤ count) (h7 : 7 ≤ height) (hlt : height < 4294967296)
    (h : goodView count (numRowsOf height) s) :
    goodView count (numRowsOf height) (navStep count height s k) := by
  have hr : 1 ≤ numRowsOf height := by rw [numRowsOf_eq h7 hlt]; omega
  obtain ⟨hg, hsel, hw0⟩ := viewNormalize_good h
  rw [navStep]
  set t := viewNormalize count (numRowsOf height) s with ht
  clear_value t
  clear ht hsel h
  obtain ⟨htc, htw⟩ := hg
  obtain ⟨tc, tw⟩ := t
  dsimp only at htc htw hw0
  cases k with
  | up =>
    rw [navKeyStep]
    dsimp only
    split_ifs with e1 e2 e3 <;> (simp [goodView]; omega)
  | down =>
    rw [navKeyStep]
    dsimp only
    rw [if_congr (down_guard_iff h7 hlt htw) rfl rfl]
    split_ifs with e1 e2 <;> (simp [goodView]; omega)

theorem navRun_good {count height : ℕ}
    (hN : 1 ≤ count) (h7 : 7 ≤ height) (hlt : height < 4294967296) :
    ∀ (ks : List NavKey) (s : ViewState), goodView count (numRowsOf height) s →
      goodView count (numRowsOf height) (navRun count height s ks)
  | [], _, h => h
  | k :: ks, s, h =>
    navRun_good hN h7 hlt ks (navStep count height s k)
      (navStep_good k hN h7 hlt h)

theorem viewNormalize_traj {count numRows k : ℕ} (hr : 1 ≤ numRows)
    (hk : k < count) :
    viewNormalize count numRows ⟨min k (numRows - 1), k - min k (numRows - 1)⟩ =
      ⟨min k (numRows - 1), k - min k (numRows - 1)⟩ := by
  simp only [viewNormalize]
  split_ifs <;> simp_all [ViewState.mk.injEq] <;> omega

theorem navRun_downs {count height : ℕ}
    (hN : 1 ≤ count) (h7 : 7 ≤ height) (hlt : height < 4294967296) :
    ∀ k : ℕ, k ≤ count - 1 →
      navRun count height ⟨0, 0⟩ (List.replicate k .down) =
        ⟨min k (numRowsOf height - 1), k - min k (numRowsOf height - 1)⟩
  | 0, _ => by simp [navRun]
  | k + 1, hk => by
    have hr : 1 ≤ numRowsOf height := by rw [numRowsOf_eq h7 hlt]; omega
    have ih := navRun_downs hN h7 hlt k (by omega)
    rw [List.replicate_succ', navRun, List.foldl_append] at *
    rw [ih]
    show navStep count height _ .down = _
    rw [navStep, viewNormalize_traj hr (by omega), navKeyStep]
    dsimp only
    have hcur : min k (numRowsOf height - 1) < numRowsOf height := by omega
    rw [if_neg (by omega), if_congr (down_guard_iff h7 hlt hcur) rfl rfl]
    split_ifs with e <;> (simp [ViewState.mk.injEq]; omega)

/-- C8: for every sequence of `MoveUp`/`MoveDown` keys on a non-empty store
shown in a terminal of height at least 7 rows, the record the viewport selects
stays a valid index in `[0, count - 1]`; and pressing `MoveDown` exactly
`count` times from the initial state returns the selection to the first
record (the navigation is cyclic). -/
theorem C8_navigation_cyclic (count height : ℕ) (ks : List NavKey)
    (hN : 1 ≤ count) (h7 : 7 ≤ height) (hlt : height < 4294967296) :
    selIdx (navRun count height ⟨0, 0⟩ ks) ≤ count - 1 ∧
    navRun count height ⟨0, 0⟩ (List.replicate count .down) = ⟨0, 0⟩ := by
  have hr : 1 ≤ numRowsOf height := by rw [numRowsOf_eq h7 hlt]; omega
  have hinit : goodView count (numRowsOf height) ⟨0, 0⟩ := by
    simp [goodView]; omega
  constructor
  · obtain ⟨h1, _⟩ := navRun_good hN h7 hlt ks ⟨0, 0⟩ hinit
    simp only [selIdx]
    omega
  · obtain ⟨count, rfl⟩ : ∃ m, count = m + 1 := ⟨count - 1, by omega⟩
    rw [List.replicate_succ', navRun, List.foldl_append]
    rw [show List.foldl (navStep (count + 1) height) ⟨0, 0⟩ (List.replicate count .down) =
        navRun (count + 1) height ⟨0, 0⟩ (List.replicate count .down) from rfl]
    rw [navRun_downs hN h7 hlt count (by omega)]
    show navStep _ height _ .down = _
    rw [navStep, viewNormalize_traj hr (by omega), navKeyStep]
    dsimp only
    rw [if_pos (by omega)]

/-- Witness for C8 at a three-record store and height 9. -/
theorem C8_navigation_cyclic_witness :
    selIdx (navRun 3 9 ⟨0, 0⟩ [.down, .down, .up]) ≤ 3 - 1 ∧
    navRun 3 9 ⟨0, 0⟩ (List.replicate 3 .down) = ⟨0, 0⟩ :=
  C8_navigation_cyclic 3 9 [.down, .down, .up] (by decide) (by decide) (by decide)

/-- C4 fails on the code: with a 2-record store, terminal height 8
(`numRows = 2`), pressing `MoveDown` selects the second record; after a
resize to height 7 (`numRows = 1`) the fitting block moves `windowPos`
forward to 1 while leaving `cursorPos` at 1, so the viewport selects
`windowStart + cursorIndex = 2`, which is not a valid index of the 2-record
store (the spec requires the excess to be folded into the cursor, keeping the
selection in `[0, count - 1]`). -/
theorem C4_resize_leaves_selection_out_of_range :
    navRunH 2 ⟨0, 0⟩ [(8, .down)] = ⟨1, 0⟩ ∧
    numRowsOf 7 = 1 ∧
    viewNormalize 2 (numRowsOf 7) ⟨1, 0⟩ = ⟨1, 1⟩ ∧
    ¬ selIdx (viewNormalize 2 (numRowsOf 7) ⟨1, 0⟩) ≤ 2 - 1 := by decide

/-! ### Evaluation helpers for the amount machines -/

theorem truncQ_intCast (n : ℤ) : truncQ ((n : ℚ)) = n := by
  rw [truncQ, Rat.num_intCast, Rat.den_intCast]
  exact Int.tdiv_one n

theorem truncQ_zero : truncQ 0 = 0 := by
  have h : ((0 : ℤ) : ℚ) = (0 : ℚ) := by norm_num
  rw [← h, truncQ_intCast]

theorem numPlacesZ_zero : numPlacesZ 0 = 1 := by decide

theorem numPlacesZ_one : numPlacesZ 1 = 1 := by decide

theorem numPlacesZ_big : numPlacesZ 999999999999 = 12 := by decide

/-! ### Withdraw safety

The `withdraw` loop can only arm its confirm flag while
`balance - newBalance >= 0`, and every editing event clears the flag, so a
committed withdrawal never drives the balance negative. -/

/-- The inductive safety invariant of the `withdraw` loop. -/
def wsafe (bal : ℚ) (s : AmountState) : Prop :=
  s.confirm = true → 0 ≤ bal - s.amount

theorem backspaceCase_confirm (s : AmountState) : (backspaceCase s).confirm = false := by
  rw [backspaceCase]
  split_ifs <;> rfl

theorem withdrawStep_cont_safe (bal : ℚ) (s s2 : AmountState) (e : AmtEv)
    (hc : withdrawStep bal s e = .cont s2) (hs : wsafe bal s) : wsafe bal s2 := by
  cases e with
  | digit d =>
    rw [withdrawStep] at hc
    by_cases h1 : d.val = 0 ∧ s.amount = 0
    · rw [if_pos h1] at hc
      injection hc with hc; subst hc
      exact hs
    · rw [if_neg h1] at hc
      dsimp only at hc
      split_ifs at hc <;> (injection hc with hc; subst hc) <;> (intro h; simp at h)
  | point =>
    rw [withdrawStep] at hc
    injection hc with hc; subst hc
    intro h; simp [pointCase] at h
  | backspace =>
    rw [withdrawStep] at hc
    injection hc with hc; subst hc
    intro h; rw [backspaceCase_confirm] at h; simp at h
  | enter =>
    rw [withdrawStep] at hc
    split_ifs at hc with h1 h2
    · injection hc with hc; subst hc
      intro _; exact h2
    · injection hc with hc; subst hc
      exact hs
  | esc =>
    rw [withdrawStep] at hc
    split_ifs at hc
    injection hc with hc; subst hc
    intro h; simp at h

theorem withdrawStep_exit_nonneg (bal : ℚ) (s : AmountState) (e : AmtEv) (b : ℚ)
    (hc : withdrawStep bal s e = .exit (some b)) (hs : wsafe bal s) : 0 ≤ b := by
  cases e with
  | digit d =>
    rw [withdrawStep] at hc
    by_cases h1 : d.val = 0 ∧ s.amount = 0
    · rw [if_pos h1] at hc
      exact StepRes.noConfusion hc
    · rw [if_neg h1] at hc
      dsimp only at hc
      split_ifs at hc
  | point =>
    rw [withdrawStep] at hc
    exact StepRes.noConfusion hc
  | backspace =>
    rw [withdrawStep] at hc
    exact StepRes.noConfusion hc
  | enter =>
    rw [withdrawStep] at hc
    split_ifs at hc with h1
    injection hc with hc
    injection hc with hc
    subst hc
    exact hs h1
  | esc =>
    rw [withdrawStep] at hc
    split_ifs at hc
    injection hc with hc
    exact Option.noConfusion hc

/-- Any committed withdrawal reachable from the loop's initial state leaves a
nonnegative balance. -/
theorem withdrawRun_nonneg (bal : ℚ) :
    ∀ (evs : List AmtEv) (s : AmountState), wsafe bal s →
      ∀ b : ℚ, runAmt (withdrawStep bal) s evs = .exit (some b) → 0 ≤ b
  | [], _, _, _, h => by simp [runAmt] at h
  | e :: evs, s, hs, b, h => by
    rw [runAmt] at h
    cases hstep : withdrawStep bal s e with
    | cont s2 =>
      rw [hstep] at h
      exact withdrawRun_nonneg bal evs s2
        (withdrawStep_cont_safe bal s s2 e hstep hs) b h
    | exit r =>
      rw [hstep] at h
      have hr : r = some b := by
        simpa using h
      subst hr
      exact withdrawStep_exit_nonneg bal s e b hstep hs

/-- In a reachable `withdraw` state whose amount exceeds the balance, Enter is
a no-op that leaves the state unchanged with the confirm flag still clear. -/
theorem withdraw_enter_overdraft_noop (bal : ℚ) (s : AmountState)
    (hs : wsafe bal s) (hover : bal - s.amount < 0) :
    withdrawStep bal s .enter = .cont s ∧ s.confirm = false := by
  have hcf : s.confirm = false := by
    cases hcs : s.confirm
    · rfl
    · exact absurd (hs hcs) (not_le.mpr hover)
  refine ⟨?_, hcf⟩
  rw [withdrawStep, if_neg (by simp [hcf]), if_neg (not_le.mpr hover)]

/-- C1 fails on the code for transfers: unlike `withdraw`, the Enter case of
`transferAmmount` arms the confirm flag without checking the balance, and the
digit guard is skipped for fractional digits.  From a source balance of 5,
typing `5 . 9` then Enter twice commits the transfer of 5.9 and leaves the
source balance at -0.9 < 0; the first Enter, attempted with the amount
already exceeding the balance, also sets `confirmPending` instead of being a
no-op. -/
theorem C1_transfer_overdraft_commits :
    runAmt (transferStep 5 0) initAmount
        [.digit ⟨5, by norm_num⟩, .point, .digit ⟨9, by norm_num⟩, .enter, .enter] =
      .exit (some (-(9 / 10), 59 / 10)) ∧
    transferStep 5 0 ⟨59 / 10, -2, false⟩ .enter = .cont ⟨59 / 10, -2, true⟩ ∧
    (5 : ℚ) - 59 / 10 < 0 ∧
    (-(9 / 10) : ℚ) < 0 := by
  have h1 : transferStep 5 0 initAmount (.digit ⟨5, by norm_num⟩) =
      .cont ⟨5, 0, false⟩ := by
    simp [transferStep, initAmount, truncQ_zero, numPlacesZ_zero, pow10]
  have h2 : transferStep 5 0 ⟨5, 0, false⟩ .point = .cont ⟨5, -1, false⟩ := by
    simp [transferStep, pointCase]
  have h3 : transferStep 5 0 ⟨5, -1, false⟩ (.digit ⟨9, by norm_num⟩) =
      .cont ⟨59 / 10, -2, false⟩ := by
    simp [transferStep, pow10]
    norm_num
  have h4 : transferStep 5 0 ⟨59 / 10, -2, false⟩ .enter =
      .cont ⟨59 / 10, -2, true⟩ := by
    simp [transferStep]
  have h5 : transferStep 5 0 ⟨59 / 10, -2, true⟩ .enter =
      .exit (some (5 - 59 / 10, 0 + 59 / 10)) := by
    simp [transferStep]
  refine ⟨?_, h4, by norm_num, by norm_num⟩
  simp only [runAmt, h1, h2, h3, h4, h5]
  norm_num

/-! ### Digit accumulation (`deposit`) -/

/-- One accepted-or-rejected whole-part digit of the `deposit` loop, on the
integer amount: a 0 while the amount is zero is a no-op, the digit is
rejected when the prospective balance `bal + amount` already shows 12 or more
places, and otherwise the amount becomes `amount * 10 + d`. -/
def acceptDigit (bal : ℚ) (a : ℕ) (d : Fin 10) : ℕ :=
  if d.val = 0 ∧ a = 0 then a
  else if 12 ≤ numPlacesZ (truncQ (bal + (a : ℚ))) then a
  else a * 10 + d.val

/-- The integer formed by the digits of `ds` that the `deposit` loop accepts. -/
def acceptDigits (bal : ℚ) (ds : List (Fin 10)) : ℕ :=
  ds.foldl (acceptDigit bal) 0

theorem depositStep_digits (bal : ℚ) :
    ∀ (ds : List (Fin 10)) (a : ℕ),
      runAmt (depositStep bal) ⟨(a : ℚ), 0, false⟩ (ds.map .digit) =
        .more ⟨((ds.foldl (acceptDigit bal) a : ℕ) : ℚ), 0, false⟩
  | [], a => by simp [runAmt]
  | d :: ds, a => by
    simp only [List.map_cons, List.foldl_cons]
    by_cases h1 : d.val = 0 ∧ a = 0
    · have hstep : depositStep bal ⟨(a : ℚ), 0, false⟩ (.digit d) =
          .cont ⟨(a : ℚ), 0, false⟩ := by
        rw [depositStep, if_pos (by dsimp only; exact_mod_cast h1)]
      have hacc : acceptDigit bal a d = a := by
        rw [acceptDigit, if_pos h1]
      rw [hacc]
      simp only [runAmt, hstep]
      exact depositStep_digits bal ds a
    · have h1q : ¬(d.val = 0 ∧ ((a : ℚ)) = 0) := by
        simpa using h1
      by_cases h2 : 12 ≤ numPlacesZ (truncQ (bal + (a : ℚ)))
      · have hstep : depositStep bal ⟨(a : ℚ), 0, false⟩ (.digit d) =
            .cont ⟨(a : ℚ), 0, false⟩ := by
          rw [depositStep, if_neg h1q]
          dsimp only
          rw [if_neg (by norm_num), if_pos rfl, if_pos h2]
        have hacc : acceptDigit bal a d = a := by
          rw [acceptDigit, if_neg h1, if_pos h2]
        rw [hacc]
        simp only [runAmt, hstep]
        exact depositStep_digits bal ds a
      · have hstep : depositStep bal ⟨(a : ℚ), 0, false⟩ (.digit d) =
            .cont ⟨((a * 10 + d.val : ℕ) : ℚ), 0, false⟩ := by
          rw [depositStep, if_neg h1q]
          dsimp only
          rw [if_neg (by norm_num), if_pos rfl, if_neg h2]
          have harith : ((a : ℚ)) * 10 + (d.val : ℚ) * pow10 (0 : ℤ) =
              ((a * 10 + d.val : ℕ) : ℚ) := by
            rw [pow10, zpow_zero, mul_one]
            push_cast
            ring
          rw [harith]
        have hacc : acceptDigit bal a d = a * 10 + d.val := by
          rw [acceptDigit, if_neg h1, if_neg h2]
        rw [hacc]
        simp only [runAmt, hstep]
        exact depositStep_digits bal ds (a * 10 + d.val)

/-- C7 amended: for every digit sequence without a decimal point fed to the
`deposit` amount loop, the accumulated amount equals (as an integer) the fold
of the accepted digits, where a digit 0 entered while the amount is zero is a
no-op, a digit is rejected exactly when the prospective balance
`balance + amount` already shows 12 or more decimal places (not when the
resulting whole part of the amount would exceed 12 digits), and an accepted
digit turns the amount into `amount * 10 + d`; the decimal cursor stays at 0
and no confirmation is armed. -/
theorem C7_digit_accumulation (bal : ℚ) (ds : List (Fin 10)) :
    runAmt (depositStep bal) initAmount (ds.map .digit) =
      .more ⟨((acceptDigits bal ds : ℕ) : ℚ), 0, false⟩ := by
  have h := depositStep_digits bal ds 0
  simpa [initAmount, acceptDigits] using h

/-- C7 as stated fails: with an account balance of 999999999999 (12 places),
the very first digit 1 is rejected even though the resulting whole part of
the amount, 1, has a single digit: the guard tests the prospective balance,
not the amount being typed. -/
theorem C7_counterexample :
    runAmt (depositStep 999999999999) initAmount [.digit ⟨1, by norm_num⟩] =
      .more initAmount ∧
    initAmount.amount * 10 + 1 * pow10 initAmount.place ≠ initAmount.amount ∧
    numPlacesZ (truncQ (initAmount.amount * 10 + 1 * pow10 initAmount.place)) ≤ 12 := by
  have hbig : truncQ ((999999999999 : ℚ)) = 999999999999 := by
    have h9 : ((999999999999 : ℚ)) = ((999999999999 : ℤ) : ℚ) := by norm_num
    rw [h9, truncQ_intCast]
  have hone : initAmount.amount * 10 + 1 * pow10 initAmount.place = ((1 : ℤ) : ℚ) := by
    simp [initAmount, pow10]
  have hstep : depositStep 999999999999 initAmount (.digit ⟨1, by norm_num⟩) =
      .cont initAmount := by
    rw [depositStep, if_neg (by simp [initAmount])]
    simp [initAmount, hbig, numPlacesZ_big]
  refine ⟨?_, ?_, ?_⟩
  · simp only [runAmt, hstep]
  · rw [hone]; norm_num [initAmount]
  · rw [hone, truncQ_intCast, numPlacesZ_one]; norm_num

/-- C9: from the empty amount state with any account balance of fewer than 12
places, entering the digits 1 . 5 0 accumulates exactly 1.50, and every
further digit event is rejected as a no-op (two fractional places is the
cap). -/
theorem C9_one_point_five_zero (bal : ℚ) (hb : numPlacesZ (truncQ bal) < 12) :
    runAmt (depositStep bal) initAmount
        [.digit ⟨1, by norm_num⟩, .point, .digit ⟨5, by norm_num⟩,
         .digit ⟨0, by norm_num⟩] =
      .more ⟨1.50, -3, false⟩ ∧
    (∀ d : Fin 10, depositStep bal ⟨1.50, -3, false⟩ (.digit d) =
      .cont ⟨1.50, -3, false⟩) := by
  have hguard : ¬ 12 ≤ numPlacesZ (truncQ (bal + initAmount.amount)) := by
    simp only [initAmount, add_zero]
    omega
  have h1 : depositStep bal initAmount (.digit ⟨1, by norm_num⟩) =
      .cont ⟨1, 0, false⟩ := by
    rw [depositStep, if_neg (by simp [initAmount])]
    dsimp only [initAmount]
    rw [if_neg (by norm_num), if_pos rfl, if_neg (by simpa [initAmount] using hguard)]
    norm_num [pow10]
  have h2 : depositStep bal ⟨1, 0, false⟩ .point = .cont ⟨1, -1, false⟩ := by
    simp [depositStep, pointCase]
  have h3 : depositStep bal ⟨1, -1, false⟩ (.digit ⟨5, by norm_num⟩) =
      .cont ⟨3 / 2, -2, false⟩ := by
    rw [depositStep, if_neg (by norm_num)]
    dsimp only
    rw [if_neg (by norm_num), if_neg (by norm_num)]
    norm_num [pow10]
  have h4 : depositStep bal ⟨3 / 2, -2, false⟩ (.digit ⟨0, by norm_num⟩) =
      .cont ⟨1.50, -3, false⟩ := by
    rw [depositStep, if_neg (by norm_num)]
    dsimp only
    rw [if_neg (by norm_num), if_neg (by norm_num)]
    norm_num [pow10]
  constructor
  · simp only [runAmt, h1, h2, h3, h4]
  · intro d
    rw [depositStep, if_neg (by norm_num), if_pos (by norm_num)]

/-- Witness for C9 at balance 0. -/
theorem C9_one_point_five_zero_witness :
    runAmt (depositStep 0) initAmount
        [.digit ⟨1, by norm_num⟩, .point, .digit ⟨5, by norm_num⟩,
         .digit ⟨0, by norm_num⟩] =
      .more ⟨1.50, -3, false⟩ ∧
    (∀ d : Fin 10, depositStep 0 ⟨1.50, -3, false⟩ (.digit d) =
      .cont ⟨1.50, -3, false⟩) :=
  C9_one_point_five_zero 0 (by rw [truncQ_zero, numPlacesZ_zero]; norm_num)

end Bankacct
